import Mathlib

/-!
# Verification of the `btb` executable-discovery and shim-generation tool

This file gives a shallow embedding of `cmd/root.go` of the `btb` repository:
a tool that discovers executables visible inside a toolbox container and
writes one host-side launcher script ("shim") per discovered executable.

The embedding models:
* `canExecute` — the permission classifier (root.go lines 68-104);
* the marker-detection and executable-collection directory walks built on
  `filepath.WalkDir` with the skip condition
  `d.Name() != filepath.Base(path) && d.IsDir()` (lines 214-223 and 286-314);
* the search-path filtering from the `PATH` environment variable
  (lines 209-231), `inPlaceReverse` (lines 59-66), and the name→path map
  built with last-write-wins semantics (lines 316-320);
* the shim-directory confirmation loop (lines 236-263) and the shim file
  format `BinFormat` (lines 106-109) with the populate loop (lines 322-339);
* the host-side relay's per-chunk decision (lines 178-199).

Filesystems are modelled as finite association lists from a path string to a
directory tree; a directory's entry list stands for the lexically ordered
enumeration `WalkDir` produces.  Machine integers (uids, gids, mode bits) are
modelled as `Nat`: the Go code compares values that are all below 2^32 after
`ParseUint(_, 10, 32)`, so `Nat` equality coincides with `uint32` equality.
I/O errors other than `os.ErrNotExist` (which every walked tree here is free
of) lead to `log.Fatal` in the Go code and are outside the model.
-/

/-- Permission classifier, from `canExecute` (root.go lines 68-104).
`mode` is the file's mode word; `sys` is the POSIX ownership metadata
`(uid, gid)` when the platform exposes it (`info.Sys().(syscall.Stat_t)`
succeeding), `none` otherwise.  `uid`/`gid` are the user's identifiers as
parsed by `strconv.ParseUint`. -/
def canExecute (uid gid : Nat) (mode : Nat) (sys : Option (Nat × Nat)) : Bool :=
  if (0o001 &&& mode) != 0 then true
  else
    match sys with
    | none => false
    | some (fUid, fGid) =>
      if (0o010 &&& mode) != 0 && fGid == gid then true
      else if (0o100 &&& mode) != 0 && fUid == uid then true
      else false

/-- Characters of the base name: strip trailing slashes, then take the part
after the last remaining slash. -/
def baseNameChars (cs : List Char) : List Char :=
  ((cs.reverse.dropWhile (fun c => c == '/')).takeWhile (fun c => c != '/')).reverse

/-- Model of Go's `filepath.Base` for slash-separated paths: `""` gives `"."`,
an all-slash path gives `"/"`, otherwise trailing slashes are dropped and the
last component is returned. -/
def baseName (s : String) : String :=
  if s == "" then "."
  else if s.toList.all (fun c => c == '/') then "/"
  else String.mk (baseNameChars s.toList)

mutual
/-- A filesystem tree: a regular file (mode word and optional POSIX ownership
metadata, as in `canExecute`) or a directory holding named entries.  Entry
names live in the containing `NodeList`, matching `fs.DirEntry.Name()`;
the entry order stands for `WalkDir`'s lexical enumeration order. -/
inductive Node where
  | file (mode : Nat) (sys : Option (Nat × Nat))
  | dir (children : NodeList)

/-- The named entries of one directory, in enumeration order. -/
inductive NodeList where
  | nil
  | cons (name : String) (node : Node) (rest : NodeList)
end

mutual
/-- Marker-detection walk (root.go lines 214-223): the `WalkDir` callback
visits the entry `node` named `name`; a directory entry whose name differs
from `filepath.Base(path)` (the fixed `base`) returns `filepath.SkipDir`,
otherwise an entry named `.btbMarker` sets the flag and a directory is
descended into. -/
def markerVisit (base : String) (name : String) : Node → Bool
  | .file _ _ => name == ".btbMarker"
  | .dir children =>
      if name != base then false
      else name == ".btbMarker" || markerScan base children

/-- `markerVisit` over every entry of a directory. -/
def markerScan (base : String) : NodeList → Bool
  | .nil => false
  | .cons n node rest => markerVisit base n node || markerScan base rest
end

mutual
/-- Executable-collection walk (root.go lines 286-314): the `WalkDir`
callback at full path `p` for the entry `node` named `name`; a directory
entry whose name differs from `base` is skipped (`filepath.SkipDir`), a
descended directory contributes its entries at `p ++ "/" ++ entryName`, and a
regular file passing `canExecute` is appended to the collected list. -/
def collectVisit (base : String) (uid gid : Nat) (p : String) (name : String) :
    Node → List String
  | .file mode sys => if canExecute uid gid mode sys then [p] else []
  | .dir children =>
      if name != base then []
      else collectScan base uid gid p children

/-- `collectVisit` over every entry of the directory at `dirPath`. -/
def collectScan (base : String) (uid gid : Nat) (dirPath : String) :
    NodeList → List String
  | .nil => []
  | .cons n node rest =>
      collectVisit base uid gid (dirPath ++ "/" ++ n) n node
        ++ collectScan base uid gid dirPath rest
end

/-- A filesystem: the directory trees reachable from path strings.  A path
absent from the list does not exist (`os.Stat` yields `os.ErrNotExist`). -/
def fsLookup (fs : List (String × Node)) (path : String) : Option Node :=
  (fs.find? (fun e => e.1 == path)).map (fun e => e.2)

/-- Model of `dirExists` (root.go lines 49-57): `os.Stat` succeeds exactly on
the paths the filesystem holds. -/
def dirExists (fs : List (String × Node)) (path : String) : Bool :=
  (fsLookup fs path).isSome

/-- The `isBtbPath` flag computed by the marker walk (root.go lines 213-223):
`WalkDir` reports the root entry under the name `filepath.Base(path)`. -/
def isBtbPath (fs : List (String × Node)) (path : String) : Bool :=
  match fsLookup fs path with
  | some n => markerVisit (baseName path) (baseName path) n
  | none => false

/-- A `PATH` entry survives the loop of root.go lines 211-231 exactly when it
exists and the marker walk found no `.btbMarker`. -/
def keepPath (fs : List (String × Node)) (path : String) : Bool :=
  dirExists fs path && !(isBtbPath fs path)

/-- Characters of `strings.Split(s, ":")`: split at every colon; the empty
input yields one empty group. -/
def splitColonChars : List Char → List (List Char)
  | [] => [[]]
  | c :: cs =>
    if c == ':' then [] :: splitColonChars cs
    else
      match splitColonChars cs with
      | [] => [[c]]
      | g :: gs => (c :: g) :: gs

/-- Model of `strings.Split(pathEnv, ":")` (root.go line 211). -/
def splitColon (s : String) : List String :=
  (splitColonChars s.toList).map String.mk

/-- Model of `os.Getenv`: the variable's value, or the empty string when the
environment does not hold the variable.  No error is reported for a missing
variable (root.go line 209 performs no check). -/
def getenv (env : List (String × String)) (key : String) : String :=
  ((env.find? (fun e => e.1 == key)).map (fun e => e.2)).getD ""

/-- Swap the elements at positions `i` and `j`, the body of `inPlaceReverse`'s
loop (`arr[i], arr[size-1-i] = arr[size-1-i], arr[i]`); out-of-range indices
never occur in the loop. -/
def swapIdx (l : List String) (i j : Nat) : List String :=
  match l[i]?, l[j]? with
  | some a, some b => (l.set i b).set j a
  | _, _ => l

/-- Model of `inPlaceReverse` (root.go lines 59-66): for `i` from `0` to
`size/2 - 1`, swap `arr[i]` with `arr[size-1-i]`. -/
def inPlaceReverse (arr : List String) : List String :=
  (List.range (arr.length / 2)).foldl
    (fun acc i => swapIdx acc i (arr.length - 1 - i)) arr

/-- One directory's contribution to `allExe` (root.go lines 286-314): the
`WalkDir` rooted at `path`, whose root entry `WalkDir` reports under the name
`filepath.Base(path)`; a path the filesystem does not hold contributes
nothing (in the Go code such a walk would `log.Fatal`, and the paths walked
were already filtered through `dirExists`). -/
def dirWalkExe (uid gid : Nat) (fs : List (String × Node)) (path : String) :
    List String :=
  match fsLookup fs path with
  | some n => collectVisit (baseName path) uid gid path (baseName path) n
  | none => []

/-- The collected `allExe` list (root.go lines 284-314): reverse the filtered
path list in place, then walk each directory in order, appending qualifying
full paths. -/
def collectAllExe (uid gid : Nat) (fs : List (String × Node))
    (paths : List String) : List String :=
  (inPlaceReverse paths).flatMap (dirWalkExe uid gid fs)

/-- One write `exeMap[k] = v` into the name→path map (root.go line 319):
a Go map assignment overwrites the previous value of the key. -/
def mapWrite (m : List (String × String)) (k v : String) :
    List (String × String) :=
  if m.any (fun e => e.1 == k) then
    m.map (fun e => if e.1 == k then (k, v) else e)
  else m ++ [(k, v)]

/-- Lookup in the modelled Go map. -/
def mapLookup (m : List (String × String)) (k : String) : Option String :=
  (m.find? (fun e => e.1 == k)).map (fun e => e.2)

/-- The `exeMap` build (root.go lines 316-320): iterate `allExe` in order and
write `exeMap[filepath.Base(exePath)] = exePath`, later writes overwriting
earlier ones. -/
def buildExeMap (allExe : List String) : List (String × String) :=
  allExe.foldl (fun m p => mapWrite m (baseName p) p) []

/-- The discovery pipeline on an explicit candidate list: filter (existence
and marker exclusion, root.go lines 211-231), reverse (line 285), collect
(lines 286-314), then build the map (lines 316-320). -/
def discoverFromList (uid gid : Nat) (fs : List (String × Node))
    (paths0 : List String) : List (String × String) :=
  buildExeMap (collectAllExe uid gid fs (paths0.filter (keepPath fs)))

/-- The full discovery pass of the inner instance, starting from the `PATH`
environment value (root.go lines 209-320). -/
def discoverExeMap (uid gid : Nat) (fs : List (String × Node))
    (pathEnv : String) : List (String × String) :=
  discoverFromList uid gid fs (splitColon pathEnv)

/-- The per-directory matches of one executable name: the walked full paths
whose base name is `name`.  Used to state which path a directory offers for
that name. -/
def dirMatches (uid gid : Nat) (fs : List (String × Node))
    (name path : String) : List String :=
  (dirWalkExe uid gid fs path).filter (fun q => baseName q == name)

/-- Whether the walk of `path` finds at least one executable named `name`. -/
def dirHasName (uid gid : Nat) (fs : List (String × Node))
    (name path : String) : Bool :=
  !(dirMatches uid gid fs name path).isEmpty

/-- Contents of one shim file: `fmt.Sprintf(BinFormat, container, exePath)`
with `BinFormat` of root.go lines 106-109. -/
def binFormat (container exePath : String) : String :=
  "#!/usr/bin/env bash\n\ntoolbox run -c " ++ container ++ " " ++ exePath ++ " $@\n"

/-- The files written into the fresh shim directory (root.go lines 274-339):
the zero-byte `.btbMarker`, then one file `{prefix}-{name}` per map entry
holding `BinFormat` instantiated with the container and the discovered
path. -/
def populate (container prefixS : String) (exeMap : List (String × String)) :
    List (String × String) :=
  (".btbMarker", "") ::
    exeMap.map (fun e => (prefixS ++ "-" ++ e.1, binFormat container e.2))

/-- Model of `strings.TrimSpace(strings.ToLower(response))` (root.go
line 247) for the ASCII responses the prompt reads. -/
def normalizeResponse (s : String) : String :=
  String.mk
    ((((s.toList.map Char.toLower).dropWhile Char.isWhitespace).reverse.dropWhile
        Char.isWhitespace).reverse)

/-- A response the switch treats as `y`/`yes`. -/
def isYesResponse (s : String) : Bool :=
  normalizeResponse s == "y" || normalizeResponse s == "yes"

/-- A response the switch treats as `n`/`no`. -/
def isNoResponse (s : String) : Bool :=
  normalizeResponse s == "n" || normalizeResponse s == "no"

/-- A response falling into the switch's `default` branch. -/
def isInvalidResponse (s : String) : Bool :=
  !(isYesResponse s || isNoResponse s)

/-- How the confirmation loop ends. -/
inductive ConfirmOutcome where
  | proceed
  | abortRefused
  | abortTooMany
  | abortNoInput
deriving DecidableEq

/-- The `UserInputLoop` of root.go lines 239-262: read responses in order;
`y`/`yes` deletes the directory and leaves the loop, `n`/`no` is fatal, an
unrecognized response is fatal once `incorrectEntryCount` has reached 3 and
otherwise reprompts with the count incremented.  Running out of input makes
`ReadString` fail, which is fatal. -/
def confirmLoop (incorrectEntryCount : Nat) : List String → ConfirmOutcome
  | [] => .abortNoInput
  | response :: rest =>
    if isYesResponse response then .proceed
    else if isNoResponse response then .abortRefused
    else if incorrectEntryCount == 3 then .abortTooMany
    else confirmLoop (incorrectEntryCount + 1) rest

/-- Outcome of the inner instance's shim-directory phase: whether it ended in
`log.Fatal`, the files of the shim directory afterwards (name, contents), and
whether the completion sentinel was printed. -/
structure InnerOutcome where
  fatal : Bool
  dirFiles : List (String × String)
  sentinelPrinted : Bool
deriving DecidableEq

/-- The shim-directory manager (root.go lines 233-263 and 270-341): when the
target directory exists its files are `some files` and the confirmation loop
runs — on `proceed` the directory is removed and recreated from scratch, on
any abort `log.Fatal` fires before `os.RemoveAll`, leaving the directory
untouched and the sentinel unprinted.  The fresh directory holds the marker
and one shim per `exeMap` entry, and `<<<Done>>>` is printed afterwards
(line 341). -/
def shimManagerRun (container prefixS : String)
    (exeMap : List (String × String))
    (existingDir : Option (List (String × String)))
    (responses : List String) : InnerOutcome :=
  match existingDir with
  | some files =>
    match confirmLoop 0 responses with
    | .proceed => ⟨false, populate container prefixS exeMap, true⟩
    | _ => ⟨true, files, false⟩
  | none => ⟨false, populate container prefixS exeMap, true⟩

/-- The whole inner instance (root.go lines 209-341): discover executables
from the `PATH` environment value, then run the shim-directory manager. -/
def innerRun (container prefixS : String) (uid gid : Nat)
    (env : List (String × String)) (fs : List (String × Node))
    (existingDir : Option (List (String × String)))
    (responses : List String) : InnerOutcome :=
  shimManagerRun container prefixS
    (discoverExeMap uid gid fs (getenv env "PATH")) existingDir responses

/-- The completion sentinel (root.go lines 191 and 341). -/
def doneSentinel : String := "<<<Done>>>"

/-- The self-invocation line written into the session
(`strings.Join(append(programArgs, "\n"), " ")`, root.go lines 144-151). -/
def selfInvocationLine (exePath binPath prefixS container : String) : String :=
  String.intercalate " "
    [exePath, "--binpath", binPath, "--prefix", prefixS,
     "--container", container, "--in-container", "true", "\n"]

/-- Model of `strings.Contains(s, pat)`. -/
def containsSubstr (s pat : String) : Bool :=
  decide (pat.toList <:+: s.toList)

/-- What the downstream relay does with one chunk. -/
inductive RelayAction where
  | terminate
  | suppress
  | forward (printed : String)
deriving DecidableEq

/-- The downstream relay's decision for one chunk read from the session's
output stream (root.go lines 191-197): a chunk containing the sentinel makes
the relay write `exit\n` into the session's input and stop; otherwise a chunk
containing the previously written self-invocation line is dropped; otherwise
the chunk is printed. -/
def relayStep (execProgram chunk : String) : RelayAction :=
  if containsSubstr chunk doneSentinel then .terminate
  else if containsSubstr chunk execProgram then .suppress
  else .forward chunk

/-! ## Helper lemmas -/

theorem length_swapIdx (l : List String) (i j : Nat) :
    (swapIdx l i j).length = l.length := by
  unfold swapIdx
  split <;> simp

theorem getElem?_swapIdx (l : List String) (i j k : Nat) (hi : i < l.length)
    (hj : j < l.length) (hij : i ≠ j) :
    (swapIdx l i j)[k]? = if k = j then l[i]? else if k = i then l[j]? else l[k]? := by
  have hi' : l[i]? = some l[i] := List.getElem?_eq_getElem hi
  have hj' : l[j]? = some l[j] := List.getElem?_eq_getElem hj
  unfold swapIdx
  rw [hi', hj']
  by_cases hkj : k = j
  · subst hkj
    rw [if_pos rfl, List.getElem?_set_self (by simpa using hj)]
  · rw [if_neg hkj, List.getElem?_set_ne (fun h => hkj h.symm)]
    by_cases hki : k = i
    · subst hki
      rw [if_pos rfl, List.getElem?_set_self hi]
    · rw [if_neg hki, List.getElem?_set_ne (fun h => hki h.symm)]

theorem length_swapFold (l : List String) (m : Nat) :
    ((List.range m).foldl (fun acc i => swapIdx acc i (l.length - 1 - i)) l).length
      = l.length := by
  induction m with
  | zero => simp
  | succ m ih =>
    rw [List.range_succ, List.foldl_append]
    simp [length_swapIdx, ih]

theorem swapFold_getElem? (l : List String) (m : Nat) :
    2 * m ≤ l.length → ∀ k,
    ((List.range m).foldl (fun acc i => swapIdx acc i (l.length - 1 - i)) l)[k]? =
      if k < m ∨ (l.length - m ≤ k ∧ k < l.length) then l[l.length - 1 - k]? else l[k]? := by
  induction m with
  | zero =>
    intro _ k
    rw [if_neg (by omega)]
    simp
  | succ m ih =>
    intro hm k
    have hm' : 2 * m ≤ l.length := by omega
    rw [List.range_succ, List.foldl_append]
    simp only [List.foldl_cons, List.foldl_nil]
    set L := (List.range m).foldl (fun acc i => swapIdx acc i (l.length - 1 - i)) l with hL
    have hLlen : L.length = l.length := length_swapFold l m
    rw [getElem?_swapIdx L m (l.length - 1 - m) k (by omega) (by omega) (by omega)]
    by_cases hk1 : k = l.length - 1 - m
    · rw [if_pos hk1, ih hm' m]
      rw [if_neg (by omega)]
      rw [if_pos (by omega)]
      rw [hk1]
      congr 1
      omega
    · rw [if_neg hk1]
      by_cases hk2 : k = m
      · rw [if_pos hk2, ih hm' (l.length - 1 - m)]
        rw [if_neg (by omega)]
        rw [if_pos (by omega), hk2]
      · rw [if_neg hk2, ih hm' k]
        by_cases hc : k < m ∨ (l.length - m ≤ k ∧ k < l.length)
        · rw [if_pos hc, if_pos (by omega)]
        · rw [if_neg hc, if_neg (by omega)]

theorem inPlaceReverse_eq_reverse (l : List String) : inPlaceReverse l = l.reverse := by
  apply List.ext_getElem?
  intro k
  unfold inPlaceReverse
  rw [swapFold_getElem? l (l.length / 2) (by omega) k]
  by_cases hk : k < l.length
  · rw [List.getElem?_reverse hk]
    by_cases hc : k < l.length / 2 ∨ (l.length - l.length / 2 ≤ k ∧ k < l.length)
    · rw [if_pos hc]
    · rw [if_neg hc]
      congr 1
      omega
  · rw [if_neg (by omega), List.getElem?_eq_none (by omega),
        List.getElem?_eq_none (by simp; omega)]

theorem getLast?_cons_or (a : String) (l : List String) :
    (a :: l).getLast? = l.getLast?.or (some a) := by
  cases l with
  | nil => rfl
  | cons b t =>
    rw [List.getLast?_cons_cons]
    exact (Option.or_of_isSome (by simp [List.getLast?_isSome])).symm

theorem mapLookup_cons_of_pos (e : String × String) (m : List (String × String))
    (k : String) (h : (e.1 == k) = true) : mapLookup (e :: m) k = some e.2 := by
  simp [mapLookup, List.find?_cons, h]

theorem mapLookup_cons_of_neg (e : String × String) (m : List (String × String))
    (k : String) (h : (e.1 == k) = false) : mapLookup (e :: m) k = mapLookup m k := by
  simp [mapLookup, List.find?_cons, h]

theorem mapLookup_mapWrite_self (m : List (String × String)) (k v : String) :
    mapLookup (mapWrite m k v) k = some v := by
  unfold mapWrite
  by_cases h : (m.any fun e => e.1 == k) = true
  · rw [if_pos h]
    induction m with
    | nil => simp at h
    | cons e m ih =>
      rw [List.map_cons]
      by_cases he : (e.1 == k) = true
      · rw [if_pos he, mapLookup_cons_of_pos _ _ _ (by simp)]
      · rw [if_neg he, mapLookup_cons_of_neg _ _ _ (by simpa using he)]
        have hm : (m.any fun e => e.1 == k) = true := by
          rcases List.any_eq_true.1 h with ⟨x, hx, hpx⟩
          rcases List.mem_cons.1 hx with rfl | hx'
          · exact absurd hpx he
          · exact List.any_eq_true.2 ⟨x, hx', hpx⟩
        exact ih hm
  · rw [if_neg h]
    induction m with
    | nil => simp [mapLookup]
    | cons e m ih =>
      have he : (e.1 == k) = false := by
        rcases hh : (e.1 == k) with _ | _
        · rfl
        · exact absurd (List.any_eq_true.2 ⟨e, List.mem_cons_self e m, hh⟩) h
      have hm : ¬(m.any fun e => e.1 == k) = true := by
        intro hc
        rcases List.any_eq_true.1 hc with ⟨x, hx, hpx⟩
        exact h (List.any_eq_true.2 ⟨x, List.mem_cons_of_mem e hx, hpx⟩)
      rw [List.cons_append, mapLookup_cons_of_neg _ _ _ he]
      exact ih hm

theorem mapLookup_mapWrite_ne (m : List (String × String)) (k' v k : String)
    (h : k' ≠ k) : mapLookup (mapWrite m k' v) k = mapLookup m k := by
  unfold mapWrite
  by_cases hany : (m.any fun e => e.1 == k') = true
  · rw [if_pos hany]
    clear hany
    induction m with
    | nil => rfl
    | cons e m ih =>
      rw [List.map_cons]
      by_cases he : (e.1 == k') = true
      · have hek : (e.1 == k) = false := by
          have h1 : e.1 = k' := by simpa using he
          simp [h1, h]
        rw [if_pos he, mapLookup_cons_of_neg _ _ _ (by simpa using h),
            mapLookup_cons_of_neg _ _ _ hek]
        exact ih
      · rw [if_neg he]
        by_cases hek : (e.1 == k) = true
        · rw [mapLookup_cons_of_pos _ _ _ hek, mapLookup_cons_of_pos _ _ _ hek]
        · rw [mapLookup_cons_of_neg _ _ _ (by simpa using hek),
              mapLookup_cons_of_neg _ _ _ (by simpa using hek)]
          exact ih
  · rw [if_neg hany]
    induction m with
    | nil =>
      rw [List.nil_append, mapLookup_cons_of_neg _ _ _ (by simpa using h)]
    | cons e m ih =>
      have hm : ¬(m.any fun e => e.1 == k') = true := by
        intro hc
        rcases List.any_eq_true.1 hc with ⟨x, hx, hpx⟩
        exact hany (List.any_eq_true.2 ⟨x, List.mem_cons_of_mem e hx, hpx⟩)
      rw [List.cons_append]
      by_cases hek : (e.1 == k) = true
      · rw [mapLookup_cons_of_pos _ _ _ hek, mapLookup_cons_of_pos _ _ _ hek]
      · rw [mapLookup_cons_of_neg _ _ _ (by simpa using hek),
            mapLookup_cons_of_neg _ _ _ (by simpa using hek)]
        exact ih hm

theorem mapLookup_foldl_write (k : String) :
    ∀ (ps : List String) (m : List (String × String)),
    mapLookup (ps.foldl (fun acc p => mapWrite acc (baseName p) p) m) k
      = ((ps.filter (fun p => baseName p == k)).getLast?).or (mapLookup m k) := by
  intro ps
  induction ps with
  | nil =>
    intro m
    simp
  | cons p ps ih =>
    intro m
    rw [List.foldl_cons, ih (mapWrite m (baseName p) p), List.filter_cons]
    by_cases hp : (baseName p == k) = true
    · have hw : mapLookup (mapWrite m (baseName p) p) k = some p := by
        have hk : baseName p = k := by simpa using hp
        rw [hk]
        exact mapLookup_mapWrite_self m k p
      rw [if_pos hp, hw, getLast?_cons_or]
      cases hgl : (ps.filter (fun p => baseName p == k)).getLast? <;>
        simp [Option.or]
    · have hk : baseName p ≠ k := by simpa using hp
      rw [if_neg hp, mapLookup_mapWrite_ne m _ p k hk]

theorem mapLookup_buildExeMap (ps : List String) (k : String) :
    mapLookup (buildExeMap ps) k
      = (ps.filter (fun p => baseName p == k)).getLast? := by
  unfold buildExeMap
  rw [mapLookup_foldl_write]
  simp [mapLookup]

theorem isEmptyReverse (l : List String) : l.reverse.isEmpty = l.isEmpty := by
  cases l with
  | nil => rfl
  | cons a t =>
    rw [List.reverse_cons]
    cases ht : t.reverse with
    | nil => rfl
    | cons c cs => rfl

theorem flatMap_of_reverse (l : List String) (g : String → List String) :
    l.reverse.flatMap g = (l.flatMap fun a => (g a).reverse).reverse := by
  rw [List.reverse_flatMap]
  have hcomp : (List.reverse ∘ fun a => (g a).reverse) = g := by
    funext a
    simp
  rw [hcomp]

theorem head?_flatMap_find? (l : List String) (g : String → List String) :
    (l.flatMap g).head?
      = (l.find? (fun a => !(g a).isEmpty)).bind (fun a => (g a).head?) := by
  induction l with
  | nil => simp
  | cons a l ih =>
    rw [List.flatMap_cons, List.head?_append, ih, List.find?_cons]
    cases hg : g a with
    | nil => simp [hg]
    | cons b t => simp [hg]

theorem getLast?_eq_head?_of_len_le_one (l : List String) (h : l.length ≤ 1) :
    l.getLast? = l.head? := by
  cases l with
  | nil => rfl
  | cons a t =>
    cases t with
    | nil => rfl
    | cons b t' =>
      simp [List.length_cons] at h

/-! ## The claims -/

/-- C1: for every search-path list and every executable name found in two or
more of the directories that survive the existence/marker filter, the
discovery pipeline (filter, reverse, collect, then last-write-wins map
building) maps that name to the path found in the first such directory of
the original, un-reversed list.  The hypothesis `huniq` states that no single
directory's walk offers the same base name twice, which holds of a real
directory since its entries bear distinct names. -/
theorem discover_first_dir_wins (uid gid : Nat) (fs : List (String × Node))
    (paths0 : List String) (name : String)
    (_hcollide : 2 ≤ (paths0.filter (keepPath fs)).countP (dirHasName uid gid fs name))
    (huniq : ∀ p ∈ paths0.filter (keepPath fs),
      (dirMatches uid gid fs name p).length ≤ 1) :
    mapLookup (discoverFromList uid gid fs paths0) name
      = ((paths0.filter (keepPath fs)).find? (dirHasName uid gid fs name)).bind
          (fun p => (dirMatches uid gid fs name p).head?) := by
  unfold discoverFromList collectAllExe
  rw [mapLookup_buildExeMap, inPlaceReverse_eq_reverse, List.filter_flatMap,
      flatMap_of_reverse, List.getLast?_reverse, head?_flatMap_find?]
  have hpred : (fun a =>
      !((dirWalkExe uid gid fs a).filter (fun q => baseName q == name)).reverse.isEmpty)
      = dirHasName uid gid fs name := by
    funext a
    rw [isEmptyReverse]
    rfl
  rw [hpred]
  cases hfind : (paths0.filter (keepPath fs)).find? (dirHasName uid gid fs name) with
  | none => simp
  | some p =>
    simp only [Option.some_bind]
    rw [List.head?_reverse]
    exact getLast?_eq_head?_of_len_le_one _
      (huniq p (List.mem_of_find?_eq_some hfind))

/-- C1 witness: two existing, marker-free directories `/a` and `/b` both hold
a world-executable `foo`; the discovered path is `/a/foo`, from the first
directory of the un-reversed list. -/
theorem discover_first_dir_wins_witness :
    mapLookup
      (discoverFromList 0 0
        [("/a", Node.dir (.cons "foo" (.file 1 none) .nil)),
         ("/b", Node.dir (.cons "foo" (.file 1 none) .nil))]
        ["/a", "/b"]) "foo" = some "/a/foo" := by
  have h := discover_first_dir_wins 0 0
    [("/a", Node.dir (.cons "foo" (.file 1 none) .nil)),
     ("/b", Node.dir (.cons "foo" (.file 1 none) .nil))]
    ["/a", "/b"] "foo" (by decide) (by decide)
  exact h.trans (by decide)

/-- C4: every path the discovery maps a name to was collected from a
search-path directory that exists and in which the marker walk found no
`.btbMarker`: a directory containing the marker never sources a discovered
executable. -/
theorem discovered_path_not_in_marker_dir (uid gid : Nat)
    (fs : List (String × Node)) (paths0 : List String) (name p : String)
    (h : mapLookup (discoverFromList uid gid fs paths0) name = some p) :
    ∃ d ∈ paths0, dirExists fs d = true ∧ isBtbPath fs d = false ∧
      p ∈ dirWalkExe uid gid fs d := by
  unfold discoverFromList collectAllExe at h
  rw [mapLookup_buildExeMap, inPlaceReverse_eq_reverse] at h
  have hp := List.mem_of_mem_getLast? h
  have hp2 := List.mem_of_mem_filter hp
  obtain ⟨d, hd, hpd⟩ := List.mem_flatMap.1 hp2
  rw [List.mem_reverse] at hd
  have hdm := List.mem_filter.1 hd
  have hkeep := hdm.2
  unfold keepPath at hkeep
  rw [Bool.and_eq_true] at hkeep
  exact ⟨d, hdm.1, hkeep.1, by simpa using hkeep.2, hpd⟩

/-- C4 witness: a search path where `/m` holds the marker (and a
world-executable `g`) while `/b` holds `foo`; the discovered `foo` comes from
the marker-free `/b`. -/
theorem discovered_path_not_in_marker_dir_witness :
    ∃ d ∈ ["/m", "/b"],
      dirExists
        [("/m", Node.dir (.cons ".btbMarker" (.file 0 none)
            (.cons "g" (.file 1 none) .nil))),
         ("/b", Node.dir (.cons "foo" (.file 1 none) .nil))] d = true ∧
      isBtbPath
        [("/m", Node.dir (.cons ".btbMarker" (.file 0 none)
            (.cons "g" (.file 1 none) .nil))),
         ("/b", Node.dir (.cons "foo" (.file 1 none) .nil))] d = false ∧
      "/b/foo" ∈ dirWalkExe 0 0
        [("/m", Node.dir (.cons ".btbMarker" (.file 0 none)
            (.cons "g" (.file 1 none) .nil))),
         ("/b", Node.dir (.cons "foo" (.file 1 none) .nil))] d :=
  discovered_path_not_in_marker_dir 0 0
    [("/m", Node.dir (.cons ".btbMarker" (.file 0 none)
        (.cons "g" (.file 1 none) .nil))),
     ("/b", Node.dir (.cons "foo" (.file 1 none) .nil))]
    ["/m", "/b"] "foo" "/b/foo" (by decide)

theorem canExecute_eq_orForm (uid gid mode : Nat) (sys : Option (Nat × Nat)) :
    canExecute uid gid mode sys =
      (((0o001 &&& mode) != 0) ||
        match sys with
        | none => false
        | some (fUid, fGid) =>
          (((0o010 &&& mode) != 0) && (fGid == gid)) ||
          (((0o100 &&& mode) != 0) && (fUid == uid))) := by
  unfold canExecute
  rcases sys with _ | ⟨fUid, fGid⟩
  · by_cases h1 : ((0o001 &&& mode) != 0) = true
    · rw [if_pos h1, h1]
      rfl
    · have h1' : ((0o001 &&& mode) != 0) = false := by simpa using h1
      rw [if_neg h1, h1']
      rfl
  · by_cases h1 : ((0o001 &&& mode) != 0) = true
    · rw [if_pos h1, h1]
      rfl
    · have h1' : ((0o001 &&& mode) != 0) = false := by simpa using h1
      rw [if_neg h1, h1']
      by_cases h2 : (((0o010 &&& mode) != 0) && (fGid == gid)) = true
      · simp [h2]
      · have h2' : (((0o010 &&& mode) != 0) && (fGid == gid)) = false := by
          simpa using h2
        by_cases h3 : (((0o100 &&& mode) != 0) && (fUid == uid)) = true
        · simp [h2', h3]
        · have h3' : (((0o100 &&& mode) != 0) && (fUid == uid)) = false := by
            simpa using h3
          simp [h2', h3']

/-- C3: `canExecute` returns true when the other-execute bit is set;
otherwise it returns true exactly when POSIX ownership metadata is available
and either the group-execute bit is set with matching group, or the
owner-execute bit is set with matching owner; without metadata it returns
false. -/
theorem canExecute_spec (uid gid mode : Nat) (sys : Option (Nat × Nat)) :
    canExecute uid gid mode sys = true ↔
      ((0o001 &&& mode) ≠ 0 ∨
        ∃ fUid fGid, sys = some (fUid, fGid) ∧
          (((0o010 &&& mode) ≠ 0 ∧ fGid = gid) ∨
            ((0o100 &&& mode) ≠ 0 ∧ fUid = uid))) := by
  rw [canExecute_eq_orForm]
  rcases sys with _ | ⟨fUid, fGid⟩ <;>
    simp [Bool.or_eq_true, Bool.and_eq_true, bne_iff_ne, beq_iff_eq, and_assoc]

set_option maxRecDepth 16384 in
/-- C2 counterexample: a chunk that strictly contains the self-invocation
line (shell prompt text around it), is not exactly equal to it, and holds no
sentinel, is nevertheless suppressed — not forwarded verbatim as the claim
states. -/
theorem relay_suppresses_nonexact_echo :
    relayStep
      (selfInvocationLine "/x/btb" "/b" "p" "c")
      ("% " ++ selfInvocationLine "/x/btb" "/b" "p" "c" ++ "% ")
      = RelayAction.suppress ∧
    ("% " ++ selfInvocationLine "/x/btb" "/b" "p" "c" ++ "% "
      == selfInvocationLine "/x/btb" "/b" "p" "c") = false ∧
    containsSubstr
      ("% " ++ selfInvocationLine "/x/btb" "/b" "p" "c" ++ "% ")
      doneSentinel = false := by
  decide

/-- C2 (amended): for each chunk, one containing the sentinel terminates the
relay; otherwise one containing the self-invocation line anywhere within it
(`strings.Contains`, not exact equality) is suppressed; otherwise the chunk
is forwarded verbatim. -/
theorem relayStep_spec (execProgram chunk : String) :
    (containsSubstr chunk doneSentinel = true →
      relayStep execProgram chunk = .terminate) ∧
    (containsSubstr chunk doneSentinel = false →
      containsSubstr chunk execProgram = true →
      relayStep execProgram chunk = .suppress) ∧
    (containsSubstr chunk doneSentinel = false →
      containsSubstr chunk execProgram = false →
      relayStep execProgram chunk = .forward chunk) := by
  refine ⟨fun h => ?_, fun h1 h2 => ?_, fun h1 h2 => ?_⟩ <;>
    simp [relayStep, *]

theorem confirmLoop_invalid_prefix (v : String) (rest : List String) :
    ∀ (invs : List String) (count : Nat),
    (∀ r ∈ invs, isInvalidResponse r = true) → count + invs.length ≤ 3 →
    isYesResponse v = true →
    confirmLoop count (invs ++ v :: rest) = .proceed := by
  intro invs
  induction invs with
  | nil =>
    intro count _ _ hv
    rw [List.nil_append]
    unfold confirmLoop
    rw [if_pos hv]
  | cons r rs ih =>
    intro count hall hlen hv
    have hr' : (isYesResponse r || isNoResponse r) = false := by
      simpa [isInvalidResponse] using hall r (List.mem_cons_self r rs)
    rw [Bool.or_eq_false_iff] at hr'
    have hcount : count ≠ 3 := by
      simp [List.length_cons] at hlen
      omega
    rw [List.cons_append]
    unfold confirmLoop
    rw [if_neg (by simp [hr'.1]), if_neg (by simp [hr'.2]),
        if_neg (by simp [hcount])]
    refine ih (count + 1) (fun x hx => hall x (List.mem_cons_of_mem r hx))
      (by simp [List.length_cons] at hlen; omega) hv

/-- C5: when the shim directory exists, every response sequence with at most
3 invalid entries followed by `y`/`yes` (case-insensitive,
whitespace-trimmed) has the directory deleted and recreated from the
discovered mapping; every sequence whose first four entries are invalid
aborts fatally with the directory unmodified. -/
theorem confirm_retry_spec (container prefixS : String)
    (exeMap files : List (String × String)) :
    (∀ invs v rest, invs.length ≤ 3 →
      (∀ r ∈ invs, isInvalidResponse r = true) → isYesResponse v = true →
      shimManagerRun container prefixS exeMap (some files) (invs ++ v :: rest)
        = ⟨false, populate container prefixS exeMap, true⟩) ∧
    (∀ r1 r2 r3 r4 rest, isInvalidResponse r1 = true →
      isInvalidResponse r2 = true → isInvalidResponse r3 = true →
      isInvalidResponse r4 = true →
      shimManagerRun container prefixS exeMap (some files)
        (r1 :: r2 :: r3 :: r4 :: rest) = ⟨true, files, false⟩) := by
  constructor
  · intro invs v rest hlen hall hv
    have hloop : confirmLoop 0 (invs ++ v :: rest) = .proceed :=
      confirmLoop_invalid_prefix v rest invs 0 hall (by omega) hv
    unfold shimManagerRun
    rw [hloop]
  · intro r1 r2 r3 r4 rest h1 h2 h3 h4
    have hb : ∀ r, isInvalidResponse r = true →
        isYesResponse r = false ∧ isNoResponse r = false := by
      intro r hr
      have hr' : (isYesResponse r || isNoResponse r) = false := by
        simpa [isInvalidResponse] using hr
      exact Bool.or_eq_false_iff.mp hr'
    have hloop : confirmLoop 0 (r1 :: r2 :: r3 :: r4 :: rest) = .abortTooMany := by
      unfold confirmLoop
      rw [if_neg (by simp [(hb r1 h1).1]), if_neg (by simp [(hb r1 h1).2]),
          if_neg (by simp)]
      unfold confirmLoop
      rw [if_neg (by simp [(hb r2 h2).1]), if_neg (by simp [(hb r2 h2).2]),
          if_neg (by simp)]
      unfold confirmLoop
      rw [if_neg (by simp [(hb r3 h3).1]), if_neg (by simp [(hb r3 h3).2]),
          if_neg (by simp)]
      unfold confirmLoop
      rw [if_neg (by simp [(hb r4 h4).1]), if_neg (by simp [(hb r4 h4).2]),
          if_pos (by simp)]
    unfold shimManagerRun
    rw [hloop]

/-- C6: every discovered (name, path) pair yields a shim file named
`{prefix}-{name}` whose contents are exactly a POSIX shebang line, a blank
line, the line `toolbox run -c {container} {path} $@`, and a trailing
newline. -/
theorem shim_file_contents (container prefixS name path : String)
    (exeMap : List (String × String)) (h : (name, path) ∈ exeMap) :
    (prefixS ++ "-" ++ name,
      "#!/usr/bin/env bash\n" ++ "\n"
        ++ ("toolbox run -c " ++ container ++ " " ++ path ++ " $@") ++ "\n")
      ∈ populate container prefixS exeMap := by
  unfold populate
  refine List.mem_cons_of_mem _ (List.mem_map.2 ⟨(name, path), h, ?_⟩)
  unfold binFormat
  refine Prod.ext rfl ?_
  simp only [String.append_assoc]
  rw [show ("#!/usr/bin/env bash\n\ntoolbox run -c " : String)
        = "#!/usr/bin/env bash\n\n" ++ "toolbox run -c " from rfl,
      String.append_assoc,
      show ("#!/usr/bin/env bash\n\n" : String)
        = "#!/usr/bin/env bash\n" ++ "\n" from rfl,
      show (" $@\n" : String) = " $@" ++ "\n" from rfl,
      String.append_assoc]

/-- C6 witness: container `mycontainer`, prefix `myprefix` and the discovered
pair (`foo`, `/usr/bin/foo`) produce the file `myprefix-foo` holding
`toolbox run -c mycontainer /usr/bin/foo $@` after the shebang line. -/
theorem shim_file_contents_witness :
    ("myprefix-foo",
      "#!/usr/bin/env bash\n\ntoolbox run -c mycontainer /usr/bin/foo $@\n")
      ∈ populate "mycontainer" "myprefix" [("foo", "/usr/bin/foo")] := by
  have h := shim_file_contents "mycontainer" "myprefix" "foo" "/usr/bin/foo"
    [("foo", "/usr/bin/foo")] (List.mem_singleton.2 rfl)
  simpa using h

/-- C7: the collection walk does descend into a subdirectory whose name
equals the search directory's base name: walking `/usr/bin` containing the
subdirectory `bin` with a world-executable `f` collects `/usr/bin/bin/f`, a
path two levels deep, where the claim requires every directory entry to be
skipped and only direct regular files collected. -/
theorem walk_descends_into_same_named_subdir :
    dirWalkExe 0 0
      [("/usr/bin",
        Node.dir (.cons "bin" (.dir (.cons "f" (.file 1 none) .nil)) .nil))]
      "/usr/bin" = ["/usr/bin/bin/f"] := by
  decide

/-- C8 counterexample: with no `PATH` variable in the environment the inner
run is not fatal: `os.Getenv` silently yields the empty string, the lone
empty path entry fails the existence check, and the run completes, writing
the marker (no shims) and printing the sentinel — the claim's fatal exit
with no shim output does not happen. -/
theorem missing_path_completes_run :
    innerRun "fedora-toolbox-35" "f35" 0 0 [("HOME", "/root")]
      [("/usr/bin", Node.dir (.cons "ls" (.file 1 none) .nil))] none []
      = ⟨false, [(".btbMarker", "")], true⟩ := by
  decide

/-- C8 (amended): when the environment lacks `PATH` (and the empty path does
not exist on the filesystem), the inner instance does not fail: discovery
sees an empty search path, and the run completes normally with a shim
directory holding only the marker and the sentinel printed. -/
theorem missing_path_yields_empty_run (container prefixS : String)
    (uid gid : Nat) (env : List (String × String)) (fs : List (String × Node))
    (responses : List String)
    (hpath : env.find? (fun e => e.1 == "PATH") = none)
    (hempty : fsLookup fs "" = none) :
    innerRun container prefixS uid gid env fs none responses
      = ⟨false, [(".btbMarker", "")], true⟩ := by
  have hget : getenv env "PATH" = "" := by
    unfold getenv
    rw [hpath]
    rfl
  have hkeep : keepPath fs "" = false := by
    unfold keepPath dirExists
    rw [hempty]
    rfl
  have hdisc : discoverExeMap uid gid fs "" = [] := by
    unfold discoverExeMap discoverFromList
    have hfilter : (splitColon "").filter (keepPath fs) = [] := by
      show List.filter (keepPath fs) [""] = []
      rw [List.filter_cons, if_neg (by simp [hkeep])]
      rfl
    rw [hfilter]
    rfl
  unfold innerRun
  rw [hget, hdisc]
  rfl

/-- C8 witness for the amended statement, at the empty environment and
filesystem. -/
theorem missing_path_yields_empty_run_witness :
    innerRun "c" "p" 0 0 [] [] none []
      = ⟨false, [(".btbMarker", "")], true⟩ :=
  missing_path_yields_empty_run "c" "p" 0 0 [] [] [] rfl rfl

/-- C9: with confirmation accepted, running the shim-directory pipeline a
second time against the same discovered mapping — now starting from the
directory the first run produced — yields the very same outcome: the same
file names with the same contents (and no fatal exit), whatever directory
state the first run started from. -/
theorem shim_pipeline_idempotent (container prefixS : String)
    (exeMap : List (String × String))
    (existingDir : Option (List (String × String))) (responses : List String)
    (h : confirmLoop 0 responses = .proceed) :
    shimManagerRun container prefixS exeMap
        (some (shimManagerRun container prefixS exeMap existingDir
          responses).dirFiles) responses
      = shimManagerRun container prefixS exeMap existingDir responses := by
  cases existingDir <;> simp [shimManagerRun, h]

/-- C9 witness: a concrete mapping, a pre-existing directory and the response
`y`. -/
theorem shim_pipeline_idempotent_witness :
    shimManagerRun "c" "p" [("foo", "/usr/bin/foo")]
        (some (shimManagerRun "c" "p" [("foo", "/usr/bin/foo")]
          (some [("old", "junk")]) ["y\n"]).dirFiles) ["y\n"]
      = shimManagerRun "c" "p" [("foo", "/usr/bin/foo")]
          (some [("old", "junk")]) ["y\n"] :=
  shim_pipeline_idempotent "c" "p" [("foo", "/usr/bin/foo")]
    (some [("old", "junk")]) ["y\n"] (by decide)

/-- C10: `inPlaceReverse` preserves the length, puts the original element
`len-1-i` at every index `i`, and applied twice restores the original
slice. -/
theorem inPlaceReverse_spec (l : List String) :
    (inPlaceReverse l).length = l.length ∧
    (∀ i, i < l.length → (inPlaceReverse l)[i]? = l[l.length - 1 - i]?) ∧
    inPlaceReverse (inPlaceReverse l) = l := by
  have h := inPlaceReverse_eq_reverse l
  refine ⟨by rw [h, List.length_reverse],
    fun i hi => by rw [h, List.getElem?_reverse hi], ?_⟩
  rw [h, inPlaceReverse_eq_reverse, List.reverse_reverse]
